import Mathlib

/-!
Verification development for the stone-ui CLI scaffolding core
(`packages/cli/src/commands/add.ts`, `packages/cli/src/commands/init.ts`,
registry from the manifest module). JavaScript strings are modelled as
Lean `String` via their character lists; the filesystem is an association
list from absolute path to file content; every write the commands perform
is also recorded in an ordered event log, so atomicity and ordering
properties can be stated about a run.
-/

namespace StoneUI

/-- Character-list prefix test (models `String.prototype.startsWith` /
the prefix relation used to define substring search). -/
def isPrefixList : List Char → List Char → Bool
  | [], _ => true
  | _ :: _, [] => false
  | a :: as, b :: bs => a = b && isPrefixList as bs

/-- Substring occurrence on character lists (models
`String.prototype.includes`: the empty pattern occurs everywhere). -/
def subOccurs (pat : List Char) : List Char → Bool
  | [] => pat.isEmpty
  | b :: bs => isPrefixList pat (b :: bs) || subOccurs pat bs

/-- `s.includes(pat)` from JavaScript. -/
def containsSubstr (s pat : String) : Bool :=
  subOccurs pat.data s.data

/-- `s.startsWith(pre)` from JavaScript. -/
def jsStartsWith (s pre : String) : Bool :=
  isPrefixList pre.data s.data

/-- The whitespace class trimmed by `String.prototype.trim` (the ASCII
part, which is all the CLI's inputs use). -/
def isJsWS (c : Char) : Bool :=
  c = ' ' || c = '\t' || c = '\n' || c = '\r' || c = '\x0b' || c = '\x0c'

/-- Character-list version of trim. -/
def trimChars (l : List Char) : List Char :=
  ((l.dropWhile isJsWS).reverse.dropWhile isJsWS).reverse

/-- `s.trim()` from JavaScript. -/
def jsTrim (s : String) : String := ⟨trimChars s.data⟩

/-- `s.toLowerCase()` from JavaScript (per-character lowering, which is
exact on the ASCII names the CLI handles). -/
def jsToLower (s : String) : String := ⟨s.data.map Char.toLower⟩

/-- Drop one leading carriage return (helper for splitting on CRLF). -/
def dropCR : List Char → List Char
  | [] => []
  | c :: t => if c = '\r' then t else c :: t

/-- Worker for `splitLines`: splits on `'\n'`, removing a `'\r'` that
immediately precedes the newline, exactly as `split(/\r?\n/)` does. -/
def splitLinesAux : List Char → List Char → List String
  | [], acc => [⟨acc.reverse⟩]
  | c :: cs, acc =>
    if c = '\n' then ⟨(dropCR acc).reverse⟩ :: splitLinesAux cs []
    else splitLinesAux cs (c :: acc)

/-- `content.split(/\r?\n/)` from the CLI sources. -/
def splitLines (s : String) : List String := splitLinesAux s.data []

/-- `lines.join("\n")` from the CLI sources. -/
def strJoinNL : List String → String
  | [] => ""
  | [x] => x
  | x :: xs => x ++ "\n" ++ strJoinNL xs

/-- Equality-based membership test on string lists (models membership in
a JavaScript `Set` of strings). -/
def listContains : List String → String → Bool
  | [], _ => false
  | x :: xs, s => if x = s then true else listContains xs s

/-- Worker for `dedupKeepFirst`, carrying the strings already seen. -/
def dedupAux (seen : List String) : List String → List String
  | [] => []
  | x :: xs =>
    if listContains seen x then dedupAux seen xs
    else x :: dedupAux (x :: seen) xs

/-- First-occurrence de-duplication: the order a JavaScript `Set` built
from the list iterates in (`[...new Set(list)]`). -/
def dedupKeepFirst (l : List String) : List String := dedupAux [] l

/-- `list.sort()` on strings (JavaScript's default lexicographic
comparison; ties are identical strings, so any stable order agrees). -/
def sortStrings (l : List String) : List String :=
  List.insertionSort (· ≤ ·) l

/-! ### The filesystem model

An association list from absolute path to content; `writeFS` replaces in
place or appends, so a run that writes nothing leaves the list equal. -/

/-- Filesystem snapshot: path ↦ content. -/
abbrev FS := List (String × String)

/-- Content at a path, if the file exists. -/
def lookupFS : FS → String → Option String
  | [], _ => none
  | (p, c) :: rest, q => if p = q then some c else lookupFS rest q

/-- `fs.existsSync` over the snapshot. -/
def existsFS (fs : FS) (p : String) : Bool := (lookupFS fs p).isSome

/-- `fs.writeFile`: replace the entry in place, or append a new one. -/
def writeFS : FS → String → String → FS
  | [], p, c => [(p, c)]
  | (q, d) :: rest, p, c =>
    if q = p then (p, c) :: rest else (q, d) :: writeFS rest p c

/-- Which call site of the CLI performed a write. -/
inductive WriteKind
  | componentFile
  | utilFile
  | barrelFile
  | configFile
  | entryFile
  | stylesFile
  deriving DecidableEq, Repr

/-- One `fs.writeFile` call of a run: the site, path and content. -/
structure WriteEvent where
  kind : WriteKind
  path : String
  content : String
  deriving DecidableEq, Repr

/-! ### Paths and languages -/

/-- The eject language of the config (`"ts" | "js"`). -/
inductive Language
  | ts
  | js
  deriving DecidableEq, Repr

/-- `path.join(a, b)` restricted to forward-slash paths, as the CLI
produces them. -/
def pathJoin (a b : String) : String := a ++ "/" ++ b

/-- `normalizeToPosix` / the `replace(/\\/g, "/")` normalisations of the
sources. -/
def posixSlashes (p : String) : String := ⟨p.data.map (fun c => if c = '\\' then '/' else c)⟩

/-- `resolveFromCwd` from `add.ts`: split the config path on `/` and join
the segments onto the invocation directory. -/
def resolveFromCwd (cwd target : String) : String := pathJoin cwd target

/-- `replaceExtension` from `add.ts`: in `js` mode rewrite a `.tsx` / `.ts`
template path to `.jsx` / `.js`. -/
def replaceExtension (filePath : String) (language : Language) : String :=
  match language with
  | .js =>
    if isPrefixList ".tsx".data.reverse filePath.data.reverse then
      ⟨filePath.data.take (filePath.data.length - 4)⟩ ++ ".jsx"
    else if isPrefixList ".ts".data.reverse filePath.data.reverse then
      ⟨filePath.data.take (filePath.data.length - 3)⟩ ++ ".js"
    else filePath
  | .ts => filePath

/-! ### The component registry (`registry/manifest.ts`) -/

/-- One template file of a registry component. -/
structure RegistryFile where
  path : String
  template : Language → String

/-- One component entry of the registry. -/
structure RegistryComponent where
  name : String
  exportName : String
  kind : String
  description : String
  requiresCn : Bool
  files : List RegistryFile

/-- The registry: component table plus the barrel and `cn` templates. -/
structure Registry where
  components : List (String × RegistryComponent)
  barrelTemplate : List String → String
  cnTemplate : Language → String

/-- Key lookup in the component table (a JavaScript object indexed by
component name). -/
def assocLookup {α : Type} : List (String × α) → String → Option α
  | [], _ => none
  | (k, v) :: rest, n => if k = n then some v else assocLookup rest n

/-- Modelled from the spec: the barrel template for a freshly created
barrel file (`templates/react/barrel.ts`, whose source is not in the
repository snapshot) — a fixed preamble with the generated export lines
inserted one per line and a trailing newline. -/
def barrelTemplate (exportsList : List String) : String :=
  "// Auto-generated Stone UI barrel file\n" ++ strJoinNL exportsList ++ "\n"

/-- The `react` registry of `getRegistry` (manifest module): three
components; the template bodies are opaque collaborators, so they are
parameters. -/
def reactRegistry (buttonT cardT neonT cnT : Language → String) : Registry where
  components :=
    [ ("button",
       { name := "button", exportName := "Button", kind := "primitive",
         description := "Primary button primitive", requiresCn := true,
         files := [{ path := "primitives/button/index.tsx", template := buttonT }] }),
      ("card",
       { name := "card", exportName := "Card", kind := "primitive",
         description := "Surface container", requiresCn := true,
         files := [{ path := "primitives/card/index.tsx", template := cardT }] }),
      ("neon-border",
       { name := "neon-border", exportName := "NeonBorder", kind := "wrapper",
         description := "Neon border wrapper", requiresCn := true,
         files := [{ path := "wrappers/neon-border/index.tsx", template := neonT }] }) ]
  barrelTemplate := barrelTemplate
  cnTemplate := cnT

/-! ### The `add` command (`commands/add.ts`) -/

/-- `promptBoolean` from `add.ts`: without a TTY return the default;
otherwise trim and lower-case the answer, empty means the default, and
only `y` / `yes` mean true. -/
def promptBoolean (isTTY : Bool) (answer : String) (defaultValue : Bool) : Bool :=
  if !isTTY then defaultValue
  else
    let normalized := jsToLower (jsTrim answer)
    if normalized = "" then defaultValue
    else normalized = "y" || normalized = "yes"

/-- `shouldWriteFile` from `add.ts`: write a missing file; always write
under `--overwrite`; skip without a TTY; skip under `--yes`; otherwise
ask, defaulting to no. -/
def shouldWriteFile (fs : FS) (fullPath : String) (overwriteAll yes isTTY : Bool)
    (answer : String) : Bool :=
  if !(existsFS fs fullPath) then true
  else if overwriteAll then true
  else if !isTTY then false
  else if yes then false
  else promptBoolean isTTY answer false

/-- The trimmed non-empty lines of an existing barrel, first occurrence
only — the `Set` that `updateBarrel` builds from the file. -/
def barrelLinesOf (content : String) : List String :=
  dedupKeepFirst (((splitLines content).map jsTrim).filter (fun l => !(l = "")))

/-- `updateBarrel` from `add.ts`: sort the export statements; create the
barrel from the template when absent; otherwise append the statements not
already present as trimmed lines, or do nothing when there are none. -/
def updateBarrel (fs : FS) (barrelPath : String) (exportStatements : List String)
    (template : List String → String) : FS × List WriteEvent :=
  let normalizedExports := sortStrings exportStatements
  match lookupFS fs barrelPath with
  | none =>
    let content := template normalizedExports
    (writeFS fs barrelPath content, [⟨.barrelFile, barrelPath, content⟩])
  | some existing =>
    let lines := barrelLinesOf existing
    let missing := normalizedExports.filter (fun s => !(listContains lines s))
    if missing = [] then (fs, [])
    else
      let content := strJoinNL (lines ++ missing) ++ "\n"
      (writeFS fs barrelPath content, [⟨.barrelFile, barrelPath, content⟩])

/-- The export statement `add.ts` pushes for a resolved component. -/
def exportStatement (c : RegistryComponent) : String :=
  "export \x7b " ++ c.exportName ++ " \x7d from \"./" ++ c.kind ++ "s/" ++ c.name ++ "\";"

/-- The target path of one component template file. -/
def targetPath (outputDir : String) (language : Language) (f : RegistryFile) : String :=
  pathJoin outputDir (replaceExtension f.path language)

/-- The inner loop of `addCommand`: the writes for one component's
template files, in order. -/
def addFilesLoop (language : Language) (outputDir : String)
    (overwriteAll yes isTTY : Bool) (answers : String → String) :
    List RegistryFile → FS → FS × List WriteEvent
  | [], fs => (fs, [])
  | f :: rest, fs =>
    let fullPath := targetPath outputDir language f
    if shouldWriteFile fs fullPath overwriteAll yes isTTY (answers fullPath) then
      let content := f.template language
      let r := addFilesLoop language outputDir overwriteAll yes isTTY answers rest
        (writeFS fs fullPath content)
      (r.1, ⟨.componentFile, fullPath, content⟩ :: r.2)
    else addFilesLoop language outputDir overwriteAll yes isTTY answers rest fs

/-- The outer loop of `addCommand` over the requested names: writes the
files of each resolved component and collects the export statements and
the `needsCn` flag. -/
def addComponentsLoop (registry : Registry) (language : Language) (outputDir : String)
    (overwriteAll yes isTTY : Bool) (answers : String → String) :
    List String → FS → FS × List WriteEvent × List String × Bool
  | [], fs => (fs, [], [], false)
  | name :: rest, fs =>
    match assocLookup registry.components name with
    | none =>
      -- unreachable once the unknown-components guard has passed
      addComponentsLoop registry language outputDir overwriteAll yes isTTY answers rest fs
    | some c =>
      let r1 := addFilesLoop language outputDir overwriteAll yes isTTY answers c.files fs
      let r2 := addComponentsLoop registry language outputDir overwriteAll yes isTTY answers rest r1.1
      (r2.1, r1.2 ++ r2.2.1, exportStatement c :: r2.2.2.1, c.requiresCn || r2.2.2.2)

/-- The extension of the shared utility file: `language === "ts" ? "ts" : "js"`. -/
def cnExt : Language → String
  | .ts => "ts"
  | .js => "js"

/-- The shared-utility step of `addCommand`: when some component required
`cn`, write `cn.ts` / `cn.js` into the utils directory under the same
write policy. -/
def cnStep (registry : Registry) (language : Language) (utilsDir : String)
    (overwriteAll yes isTTY : Bool) (answers : String → String)
    (needsCn : Bool) (fs : FS) : FS × List WriteEvent :=
  if needsCn then
    let cnPath := pathJoin utilsDir ("cn." ++ cnExt language)
    if shouldWriteFile fs cnPath overwriteAll yes isTTY (answers cnPath) then
      (writeFS fs cnPath (registry.cnTemplate language), [⟨.utilFile, cnPath, registry.cnTemplate language⟩])
    else (fs, [])
  else (fs, [])

/-- The resolved paths `addCommand` computes from the loaded config. -/
structure ConfigPaths where
  outputDir : String
  barrelFile : String
  utilsDir : Option String
  deriving Repr

/-- `addCommand` from `add.ts`, from the registry lookup onward (the
config has been loaded by `readConfig`, modelled separately): normalise
the requested names, fail atomically on unknown ones, write component
files, then the shared utility, then merge the barrel. The first result
is the thrown error if any; the snapshot and the ordered write log are
returned in every case. -/
def addCommand (registry : Registry) (cwd : String) (cfg : ConfigPaths)
    (language : Language) (isTTY : Bool) (answers : String → String)
    (fs : FS) (components : List String) (overwriteAll yes : Bool) :
    Except String Unit × FS × List WriteEvent :=
  let requested := components.map (fun c => jsToLower (jsTrim c))
  let unknown := requested.filter (fun n => (assocLookup registry.components n).isNone)
  if unknown = [] then
    let outputDir := resolveFromCwd cwd cfg.outputDir
    let barrelPath := resolveFromCwd cwd cfg.barrelFile
    let utilsDir := resolveFromCwd cwd
      (cfg.utilsDir.getD (posixSlashes cfg.outputDir ++ "/utils"))
    let r1 := addComponentsLoop registry language outputDir overwriteAll yes isTTY answers requested fs
    let r2 := cnStep registry language utilsDir overwriteAll yes isTTY answers r1.2.2.2 r1.1
    let r3 := updateBarrel r2.1 barrelPath r1.2.2.1 registry.barrelTemplate
    (.ok (), r3.1, r1.2.1 ++ r2.2 ++ r3.2)
  else
    (.error ("Unknown components: " ++ String.intercalate ", " unknown), fs, [])

/-- `readConfig` from `add.ts`: the missing-config error when the file is
absent; otherwise the platform JSON parser's result is returned as-is
(the `as StoneConfig` cast performs no validation), so the parser is a
parameter. -/
def readConfig {α : Type} (parse : String → Except String α) (fs : FS) (cwd : String) :
    Except String α :=
  match lookupFS fs (pathJoin cwd "stone-ui.config.json") with
  | none => .error "Missing stone-ui.config.json. Run \"npx @stone-ui/cli init\" first."
  | some raw => parse raw

/-! ### The `init` command (`commands/init.ts`) -/

/-- The frameworks `detectFramework` can report. -/
inductive Framework
  | react
  | vue
  | svelte
  | unknown
  deriving DecidableEq, Repr

/-- String form of a framework, as interpolated into messages. -/
def frameworkToString : Framework → String
  | .react => "react"
  | .vue => "vue"
  | .svelte => "svelte"
  | .unknown => "unknown"

/-- The exact import line `init.ts` inserts (`STYLES_IMPORT`). -/
def stylesImport : String := "import \"@stone-ui/styles/stone.css\";"

/-- The stylesheet path whose presence anywhere in the entry file makes
`ensureStylesImport` skip the patch. -/
def stoneCssPath : String := "@stone-ui/styles/stone.css"

/-- `writeConfig` from `init.ts`: an existing config without the
overwrite flag is left untouched (a warning, not an error); otherwise the
serialised config plus a trailing newline is written. The platform's
`JSON.stringify` output is the `configJson` parameter. -/
def writeConfig (fs : FS) (filePath : String) (configJson : String)
    (overwrite : Bool) : FS × List WriteEvent :=
  if existsFS fs filePath && !overwrite then (fs, [])
  else
    (writeFS fs filePath (configJson ++ "\n"),
     [⟨.configFile, filePath, configJson ++ "\n"⟩])

/-- Is this trimmed line one the import scan of `patchImportAtTop` skips
(blank, a `//` comment, or a `/*` comment opener)? -/
def isSkipTrimmed (t : String) : Bool :=
  t = "" || jsStartsWith t "//" || jsStartsWith t "/*"

/-- Is this trimmed line recognised as an import statement by
`patchImportAtTop`? -/
def isImportTrimmed (t : String) : Bool :=
  jsStartsWith t "import " || jsStartsWith t "import\x7b" ||
  jsStartsWith t "import\"" || jsStartsWith t "import'"

/-- A raw line the scan skips. -/
def isSkipLine (l : String) : Bool := isSkipTrimmed (jsTrim l)

/-- A raw line the scan counts as an import. -/
def isImportLine (l : String) : Bool := isImportTrimmed (jsTrim l)

/-- The scan of `patchImportAtTop`, carried out exactly as the `for` loop
with `continue`/`break` does: `last` is the import index recorded so far;
a non-skippable non-import line ends the scan only once an import has
been seen. -/
def findLastImportIndexAux : List String → Nat → Option Nat → Option Nat
  | [], _, last => last
  | l :: rest, i, last =>
    let t := jsTrim l
    if isSkipTrimmed t then findLastImportIndexAux rest (i + 1) last
    else if isImportTrimmed t then findLastImportIndexAux rest (i + 1) (some i)
    else
      match last with
      | some k => some k
      | none => findLastImportIndexAux rest (i + 1) none

/-- `patchImportAtTop` from `init.ts`: insert the import line right after
the scan's index, or prepend it when the file has no import line. -/
def patchImportAtTop (source importLine : String) : String :=
  let lines := splitLines source
  match findLastImportIndexAux lines 0 none with
  | some k => strJoinNL (lines.take (k + 1) ++ [importLine] ++ lines.drop (k + 1))
  | none => importLine ++ "\n" ++ source

/-- `ensureStylesImport` from `init.ts`: an unreadable entry file reports
false; a file already mentioning the stylesheet path reports false with
no write; otherwise the patched source is written back and true is
reported. -/
def ensureStylesImport (fs : FS) (fullPath : String) : FS × List WriteEvent × Bool :=
  match lookupFS fs fullPath with
  | none => (fs, [], false)
  | some src =>
    if containsSubstr src stoneCssPath then (fs, [], false)
    else
      let patched := patchImportAtTop src stylesImport
      (writeFS fs fullPath patched, [⟨.entryFile, fullPath, patched⟩], true)

/-- `writeLocalStyles` from `init.ts`: nothing for an empty relative
path; otherwise the packaged stylesheet template (an opaque collaborator,
passed as `css`) is written at the path joined onto the project root. -/
def writeLocalStyles (fs : FS) (cwd relativePath css : String) : FS × List WriteEvent :=
  if relativePath = "" then (fs, [])
  else
    (writeFS fs (pathJoin cwd relativePath) css,
     [⟨.stylesFile, pathJoin cwd relativePath, css⟩])

/-- The read-only results of the project probes `initCommand` runs before
it mutates anything (`detectPackageManager`, `detectFramework`,
`detectCssSupport`, `detectStylesEntry`); they only inspect the project,
so they enter the model as inputs. -/
structure InitProbe where
  framework : Framework
  pm : String
  supportsCssImports : Bool
  stylesEntry : Option String

/-- `initCommand` from `init.ts`, with the filesystem effects explicit:
require `package.json`, reject a non-react framework before anything is
written, write the config (non-destructively by default), then in runtime
style mode install the styles dependency (the spawn's exit status is
`installStatus`) and patch the entry file, or in local mode generate the
local stylesheet. `configJson` and `cssTemplate` stand for the
serialised config and the packaged stylesheet. -/
def initCommand (fs : FS) (cwd : String) (probe : InitProbe)
    (configJson cssTemplate : String)
    (yes shouldInstall shouldPatch overwriteConfig : Bool)
    (installConfirm : Bool) (installStatus : Int) :
    Except String Unit × FS × List WriteEvent :=
  if !(existsFS fs (pathJoin cwd "package.json")) then
    (.error ("No package.json found in " ++ cwd ++ ". Run this inside a project root."),
     fs, [])
  else if probe.framework ≠ .react then
    (.error ("Unsupported framework: " ++ frameworkToString probe.framework ++
      ". Stone UI CLI currently supports React."), fs, [])
  else
    let w := writeConfig fs (pathJoin cwd "stone-ui.config.json")
      configJson overwriteConfig
    if probe.supportsCssImports then
      -- runtime style strategy
      let installOk := if yes then true else installConfirm
      if shouldInstall && installOk && installStatus ≠ 0 then
        (.error ("Dependency installation failed with " ++ probe.pm ++
          ". Exit code: " ++ toString installStatus), w.1, w.2)
      else if shouldPatch then
        match probe.stylesEntry with
        | none => (.ok (), w.1, w.2)
        | some entry =>
          let e := ensureStylesImport w.1 (pathJoin cwd entry)
          (.ok (), e.1, w.2 ++ e.2.1)
      else (.ok (), w.1, w.2)
    else
      -- local style strategy: outputDir is the constant of `initCommand`
      let localStylesFile := "src/components/stone-ui" ++ "/stone-ui.css"
      let s := writeLocalStyles w.1 cwd localStylesFile cssTemplate
      (.ok (), s.1, w.2 ++ s.2)

/-! ### Filesystem lemmas -/

theorem lookupFS_writeFS_self (fs : FS) (p c : String) :
    lookupFS (writeFS fs p c) p = some c := by
  induction fs with
  | nil => simp [writeFS, lookupFS]
  | cons hd tl ih =>
    obtain ⟨q, d⟩ := hd
    by_cases h : q = p
    · subst h; simp [writeFS, lookupFS]
    · simp [writeFS, lookupFS, h, ih]

theorem lookupFS_writeFS_ne (fs : FS) (p c q : String) (h : p ≠ q) :
    lookupFS (writeFS fs p c) q = lookupFS fs q := by
  induction fs with
  | nil => simp [writeFS, lookupFS, h]
  | cons hd tl ih =>
    obtain ⟨k, d⟩ := hd
    by_cases hk : k = p
    · subst hk; simp [writeFS, lookupFS, h, ih]
    · simp only [writeFS, if_neg hk]
      by_cases hq : k = q
      · subst hq; simp [lookupFS]
      · simp [lookupFS, hq, ih]

theorem writeFS_cancel (fs : FS) (p c : String) (h : lookupFS fs p = some c) :
    writeFS fs p c = fs := by
  induction fs with
  | nil => simp [lookupFS] at h
  | cons hd tl ih =>
    obtain ⟨k, d⟩ := hd
    by_cases hk : k = p
    · subst hk
      have hd : d = c := by simpa [lookupFS] using h
      subst hd
      simp [writeFS]
    · simp only [lookupFS, if_neg hk] at h
      simp [writeFS, hk, ih h]

theorem existsFS_writeFS_self (fs : FS) (p c : String) :
    existsFS (writeFS fs p c) p = true := by
  simp [existsFS, lookupFS_writeFS_self]

theorem existsFS_writeFS_mono (fs : FS) (p c q : String)
    (h : existsFS fs q = true) : existsFS (writeFS fs p c) q = true := by
  by_cases hpq : p = q
  · subst hpq; exact existsFS_writeFS_self fs p c
  · simpa [existsFS, lookupFS_writeFS_ne fs p c q hpq] using h

/-! ### Membership, de-duplication and sorting lemmas -/

theorem listContains_iff (l : List String) (s : String) :
    listContains l s = true ↔ s ∈ l := by
  induction l with
  | nil => simp [listContains]
  | cons x xs ih =>
    by_cases h : x = s
    · subst h; simp [listContains]
    · simp [listContains, h, ih, Ne.symm h]

theorem mem_dedupAux (seen l : List String) (s : String) :
    s ∈ dedupAux seen l ↔ s ∈ l ∧ ¬ s ∈ seen := by
  induction l generalizing seen with
  | nil => simp [dedupAux]
  | cons x xs ih =>
    simp only [dedupAux]
    by_cases h : x ∈ seen
    · rw [if_pos (by rw [listContains_iff]; exact h)]
      rw [ih]
      constructor
      · rintro ⟨hmem, hns⟩; exact ⟨List.mem_cons_of_mem _ hmem, hns⟩
      · rintro ⟨hmem, hns⟩
        rcases List.mem_cons.mp hmem with rfl | hx
        · exact absurd h hns
        · exact ⟨hx, hns⟩
    · rw [if_neg (by rw [listContains_iff]; exact h)]
      by_cases hs : s = x
      · subst hs; simp [ih, h]
      · simp [ih, hs]

theorem mem_dedupKeepFirst (l : List String) (s : String) :
    s ∈ dedupKeepFirst l ↔ s ∈ l := by
  simp [dedupKeepFirst, mem_dedupAux]

theorem dedupAux_sublist (seen l : List String) : (dedupAux seen l).Sublist l := by
  induction l generalizing seen with
  | nil => simp [dedupAux]
  | cons x xs ih =>
    by_cases h : listContains seen x
    · simpa [dedupAux, h] using (ih seen).cons x
    · rw [Bool.not_eq_true] at h
      simpa [dedupAux, h] using (ih (x :: seen)).cons₂ x

theorem dedupKeepFirst_sublist (l : List String) : (dedupKeepFirst l).Sublist l :=
  dedupAux_sublist [] l

theorem mem_sortStrings (l : List String) (s : String) :
    s ∈ sortStrings l ↔ s ∈ l :=
  (List.perm_insertionSort (· ≤ ·) l).mem_iff

theorem sorted_sortStrings (l : List String) :
    List.Sorted (· ≤ ·) (sortStrings l) :=
  List.sorted_insertionSort (· ≤ ·) l

/-! ### Substring lemmas -/

theorem isPrefixList_iff (p l : List Char) :
    isPrefixList p l = true ↔ ∃ t, l = p ++ t := by
  induction p generalizing l with
  | nil => simp [isPrefixList]
  | cons a as ih =>
    cases l with
    | nil => simp [isPrefixList]
    | cons b bs =>
      simp only [isPrefixList, Bool.and_eq_true, decide_eq_true_eq, ih]
      constructor
      · rintro ⟨rfl, t, rfl⟩; exact ⟨t, rfl⟩
      · rintro ⟨t, ht⟩
        injection ht with h1 h2
        exact ⟨h1.symm, t, h2⟩

theorem subOccurs_iff (p l : List Char) :
    subOccurs p l = true ↔ ∃ u v, l = u ++ p ++ v := by
  induction l with
  | nil =>
    simp only [subOccurs, List.isEmpty_iff]
    constructor
    · rintro rfl; exact ⟨[], [], rfl⟩
    · rintro ⟨u, v, huv⟩
      rcases List.append_eq_nil.mp huv.symm with ⟨h1, h2⟩
      exact (List.append_eq_nil.mp h1).2
  | cons b bs ih =>
    simp only [subOccurs, Bool.or_eq_true, isPrefixList_iff, ih]
    constructor
    · rintro (⟨t, ht⟩ | ⟨u, v, huv⟩)
      · exact ⟨[], t, by simpa using ht⟩
      · exact ⟨b :: u, v, by simp [huv]⟩
    · rintro ⟨u, v, huv⟩
      cases u with
      | nil => exact Or.inl ⟨v, by simpa using huv⟩
      | cons x xs =>
        simp only [List.cons_append] at huv
        injection huv with h1 h2
        exact Or.inr ⟨xs, v, h2⟩

theorem subOccurs_trans (p q l : List Char)
    (hpq : subOccurs p q = true) (hql : subOccurs q l = true) :
    subOccurs p l = true := by
  rw [subOccurs_iff] at hpq hql ⊢
  obtain ⟨u1, v1, rfl⟩ := hpq
  obtain ⟨u2, v2, rfl⟩ := hql
  exact ⟨u2 ++ u1, v1 ++ v2, by simp⟩

theorem containsSubstr_trans (s mid pat : String)
    (h1 : containsSubstr s mid = true) (h2 : containsSubstr mid pat = true) :
    containsSubstr s pat = true :=
  subOccurs_trans pat.data mid.data s.data h2 h1

/-! ### Line splitting and joining -/

theorem strData_append (a b : String) : (a ++ b).data = a.data ++ b.data := by
  cases a; cases b; rfl

theorem strMk_eta (s : String) : (⟨s.data⟩ : String) = s := by
  cases s; rfl

/-- A string that survives a split-and-rejoin as one line: it holds no
newline and does not end in a carriage return. -/
def CleanLine (s : String) : Prop :=
  ('\n' ∉ s.data) ∧ dropCR s.data.reverse = s.data.reverse

instance (s : String) : Decidable (CleanLine s) :=
  inferInstanceAs (Decidable (('\n' ∉ s.data) ∧ dropCR s.data.reverse = s.data.reverse))

theorem dropCR_of_mem_not_cr (l : List Char) (h : ∀ c ∈ l, isJsWS c = false) :
    dropCR l = l := by
  cases l with
  | nil => rfl
  | cons c t =>
    have : c ≠ '\r' := by
      intro hc
      subst hc
      have := h '\r' (List.mem_cons_self _ _)
      simp [isJsWS] at this
    simp [dropCR, this]

theorem mem_dropCR (l : List Char) (c : Char) (h : c ∈ dropCR l) : c ∈ l := by
  cases l with
  | nil => simp [dropCR] at h
  | cons x t =>
    by_cases hx : x = '\r'
    · subst hx
      simp only [dropCR, if_pos rfl] at h
      exact List.mem_cons_of_mem _ h
    · simpa [dropCR, hx] using h

theorem splitLinesAux_append (d : List Char) (cs acc : List Char)
    (hd : ∀ c ∈ d, c ≠ '\n') :
    splitLinesAux (d ++ '\n' :: cs) acc =
      ⟨(dropCR (d.reverse ++ acc)).reverse⟩ :: splitLinesAux cs [] := by
  induction d generalizing acc with
  | nil => simp [splitLinesAux]
  | cons c d' ih =>
    have hc : c ≠ '\n' := hd c (List.mem_cons_self _ _)
    have hd' : ∀ x ∈ d', x ≠ '\n' := fun x hx => hd x (List.mem_cons_of_mem _ hx)
    simp only [List.cons_append, splitLinesAux, if_neg hc, List.append_eq]
    rw [ih (c :: acc) hd']
    simp

theorem splitLinesAux_no_newline (l acc : List Char) (hacc : ∀ c ∈ acc, c ≠ '\n') :
    ∀ t ∈ splitLinesAux l acc, '\n' ∉ t.data := by
  induction l generalizing acc with
  | nil =>
    intro t ht hmem
    simp only [splitLinesAux, List.mem_singleton] at ht
    subst ht
    exact hacc '\n' (by simpa using hmem) rfl
  | cons c cs ih =>
    intro t ht
    by_cases hc : c = '\n'
    · subst hc
      simp only [splitLinesAux, reduceIte, List.mem_cons] at ht
      rcases ht with heq | ht2
      · subst heq
        intro hmem
        have : '\n' ∈ dropCR acc := by simpa using hmem
        exact hacc '\n' (mem_dropCR acc '\n' this) rfl
      · exact ih [] (by simp) t ht2
    · simp only [splitLinesAux, if_neg hc] at ht
      exact ih (c :: acc) (by
        intro x hx
        rcases List.mem_cons.mp hx with rfl | hx
        · exact hc
        · exact hacc x hx) t ht

theorem splitLines_no_newline (s : String) :
    ∀ t ∈ splitLines s, '\n' ∉ t.data :=
  splitLinesAux_no_newline s.data [] (by simp)

theorem splitLines_join_newline (x : String) (xs : List String)
    (h : ∀ s ∈ x :: xs, CleanLine s) :
    splitLines (strJoinNL (x :: xs) ++ "\n") = (x :: xs) ++ [""] := by
  induction xs generalizing x with
  | nil =>
    obtain ⟨hnl, hcr⟩ := h x (List.mem_cons_self _ _)
    show splitLinesAux (x ++ "\n").data [] = [x, ""]
    rw [strData_append]
    have hnl' : ∀ c ∈ x.data, c ≠ '\n' := fun c hc he => hnl (he ▸ hc)
    rw [show ("\n" : String).data = '\n' :: [] from rfl]
    rw [splitLinesAux_append x.data [] [] hnl']
    rw [List.append_nil, hcr]
    simp [splitLinesAux, strMk_eta]
  | cons y ys ih =>
    obtain ⟨hnl, hcr⟩ := h x (List.mem_cons_self _ _)
    have hnl' : ∀ c ∈ x.data, c ≠ '\n' := fun c hc he => hnl (he ▸ hc)
    have hjoin : strJoinNL (x :: y :: ys) = x ++ "\n" ++ strJoinNL (y :: ys) := rfl
    show splitLinesAux (strJoinNL (x :: y :: ys) ++ "\n").data [] = _
    rw [hjoin]
    have hdata : ((x ++ "\n" ++ strJoinNL (y :: ys)) ++ "\n").data
        = x.data ++ '\n' :: (strJoinNL (y :: ys) ++ "\n").data := by
      rw [strData_append, strData_append, strData_append]
      rw [show ("\n" : String).data = '\n' :: [] from rfl]
      simp
    rw [hdata]
    rw [splitLinesAux_append x.data _ [] hnl']
    rw [List.append_nil, hcr]
    have := ih y (fun s hs => h s (List.mem_cons_of_mem _ hs))
    simp only [splitLines] at this
    rw [this]
    simp [strMk_eta]

/-! ### Trim lemmas -/

theorem mem_dropWhileChar (p : Char → Bool) (l : List Char) (c : Char)
    (h : c ∈ l.dropWhile p) : c ∈ l := by
  induction l with
  | nil => simp at h
  | cons x t ih =>
    by_cases hx : p x
    · rw [List.dropWhile_cons_of_pos hx] at h
      exact List.mem_cons_of_mem _ (ih h)
    · rw [List.dropWhile_cons_of_neg hx] at h
      exact h

theorem dropWhileChar_head_false (p : Char → Bool) (l : List Char) (x : Char)
    (t : List Char) (h : l.dropWhile p = x :: t) : p x = false := by
  induction l with
  | nil => simp at h
  | cons y ys ih =>
    by_cases hy : p y
    · rw [List.dropWhile_cons_of_pos hy] at h
      exact ih h
    · rw [List.dropWhile_cons_of_neg hy] at h
      injection h with h1 h2
      subst h1
      simpa using hy

theorem mem_trimChars (l : List Char) (c : Char) (h : c ∈ trimChars l) : c ∈ l := by
  rw [trimChars] at h
  rw [List.mem_reverse] at h
  have h1 := mem_dropWhileChar isJsWS _ c h
  rw [List.mem_reverse] at h1
  exact mem_dropWhileChar isJsWS l c h1

theorem trimChars_reverse (l : List Char) :
    (trimChars l).reverse = ((l.dropWhile isJsWS).reverse).dropWhile isJsWS := by
  simp [trimChars]

theorem dropCR_trimChars_reverse (l : List Char) :
    dropCR (trimChars l).reverse = (trimChars l).reverse := by
  rw [trimChars_reverse]
  cases hm : ((l.dropWhile isJsWS).reverse).dropWhile isJsWS with
  | nil => rfl
  | cons x t =>
    have hx := dropWhileChar_head_false isJsWS _ x t hm
    have hxcr : x ≠ '\r' := by
      intro hc; subst hc; simp [isJsWS] at hx
    simp [dropCR, hxcr]

theorem CleanLine_jsTrim (s : String) (h : '\n' ∉ s.data) : CleanLine (jsTrim s) := by
  constructor
  · intro hmem
    exact h (mem_trimChars s.data '\n' hmem)
  · exact dropCR_trimChars_reverse s.data

/-! ### Barrel-line lemmas -/

theorem mem_barrelLinesOf_of_mem_splitLines (content s : String)
    (h1 : s ∈ splitLines content) (h2 : jsTrim s = s) (h3 : s ≠ "") :
    s ∈ barrelLinesOf content := by
  rw [barrelLinesOf, mem_dedupKeepFirst, List.mem_filter]
  refine ⟨?_, by simp [h3]⟩
  have := List.mem_map_of_mem jsTrim h1
  rwa [h2] at this

theorem barrelLinesOf_cleanline (content : String) :
    ∀ x ∈ barrelLinesOf content, CleanLine x := by
  intro x hx
  rw [barrelLinesOf, mem_dedupKeepFirst, List.mem_filter] at hx
  obtain ⟨hx1, _⟩ := hx
  obtain ⟨y, hy, rfl⟩ := List.mem_map.mp hx1
  exact CleanLine_jsTrim y (splitLines_no_newline content y hy)

/-- A string that is already a clean, trimmed, non-empty line — the shape
of every export statement the registry produces. -/
def TrimmedStatement (s : String) : Prop :=
  CleanLine s ∧ jsTrim s = s ∧ s ≠ ""

instance (s : String) : Decidable (TrimmedStatement s) :=
  inferInstanceAs (Decidable (CleanLine s ∧ jsTrim s = s ∧ s ≠ ""))

theorem splitLines_join_clean (L : List String) (hL : L ≠ [])
    (h : ∀ s ∈ L, CleanLine s) :
    splitLines (strJoinNL L ++ "\n") = L ++ [""] := by
  cases L with
  | nil => exact absurd rfl hL
  | cons x xs => exact splitLines_join_newline x xs h

/-- After `updateBarrel` runs (with the modelled base template) the
barrel file exists and contains every statement among its trimmed
non-empty lines. -/
theorem updateBarrel_establishes (fs : FS) (p : String) (stmts : List String)
    (hstmts : ∀ s ∈ stmts, TrimmedStatement s) :
    ∃ c, lookupFS (updateBarrel fs p stmts barrelTemplate).1 p = some c ∧
      ∀ s ∈ stmts, s ∈ barrelLinesOf c := by
  cases hfs : lookupFS fs p with
  | none =>
    refine ⟨barrelTemplate (sortStrings stmts), ?_, ?_⟩
    · simp only [updateBarrel, hfs]
      exact lookupFS_writeFS_self fs p _
    · intro s hs
      have hs' : s ∈ sortStrings stmts := (mem_sortStrings stmts s).mpr hs
      cases hsort : sortStrings stmts with
      | nil => rw [hsort] at hs'; simp at hs'
      | cons z zs =>
        have hmemstmts : ∀ u ∈ sortStrings stmts, TrimmedStatement u := by
          intro u hu; exact hstmts u ((mem_sortStrings stmts u).mp hu)
        have hcontent : barrelTemplate (sortStrings stmts)
            = strJoinNL ("// Auto-generated Stone UI barrel file" :: z :: zs) ++ "\n" := by
          rw [barrelTemplate, hsort]
          have : strJoinNL ("// Auto-generated Stone UI barrel file" :: z :: zs)
              = "// Auto-generated Stone UI barrel file" ++ "\n" ++ strJoinNL (z :: zs) := rfl
          rw [this]
          have hlit : ("// Auto-generated Stone UI barrel file\n" : String)
              = "// Auto-generated Stone UI barrel file" ++ "\n" := by decide
          rw [hlit]
        have hclean : ∀ u ∈ ("// Auto-generated Stone UI barrel file" :: z :: zs), CleanLine u := by
          intro u hu
          rcases List.mem_cons.mp hu with rfl | hu2
          · exact ⟨by decide, by decide⟩
          · exact ((hmemstmts u (by rw [hsort]; exact hu2)).1)
        have hsplit := splitLines_join_clean _ (by simp) hclean
        rw [← hcontent] at hsplit
        rw [hsort] at hsplit hs'
        apply mem_barrelLinesOf_of_mem_splitLines
        · rw [hsplit]
          exact List.mem_append_left _ (List.mem_cons_of_mem _ hs')
        · exact (hstmts s hs).2.1
        · exact (hstmts s hs).2.2
  | some existing =>
    by_cases hmiss :
        (sortStrings stmts).filter (fun s => !(listContains (barrelLinesOf existing) s)) = []
    · refine ⟨existing, ?_, ?_⟩
      · simp only [updateBarrel, hfs, hmiss]
        simp [hfs]
      · intro s hs
        have hs' : s ∈ sortStrings stmts := (mem_sortStrings stmts s).mpr hs
        have := List.filter_eq_nil_iff.mp hmiss s hs'
        simp only [Bool.not_eq_true', Bool.not_eq_false] at this
        exact (listContains_iff _ s).mp this
    · set L := barrelLinesOf existing with hLdef
      set missing := (sortStrings stmts).filter (fun s => !(listContains L s)) with hMdef
      refine ⟨strJoinNL (L ++ missing) ++ "\n", ?_, ?_⟩
      · simp only [updateBarrel, hfs]
        rw [if_neg hmiss]
        exact lookupFS_writeFS_self _ p _
      · intro s hs
        have hclean : ∀ u ∈ L ++ missing, CleanLine u := by
          intro u hu
          rcases List.mem_append.mp hu with hu1 | hu2
          · exact barrelLinesOf_cleanline existing u hu1
          · have : u ∈ sortStrings stmts := List.mem_of_mem_filter hu2
            exact (hstmts u ((mem_sortStrings stmts u).mp this)).1
        have hne : L ++ missing ≠ [] := by
          intro hnil
          exact hmiss (List.append_eq_nil.mp hnil).2
        have hsplit := splitLines_join_clean (L ++ missing) hne hclean
        apply mem_barrelLinesOf_of_mem_splitLines
        · rw [hsplit]
          have hs' : s ∈ sortStrings stmts := (mem_sortStrings stmts s).mpr hs
          apply List.mem_append_left
          by_cases hin : listContains L s
          · exact List.mem_append_left _ ((listContains_iff L s).mp hin)
          · apply List.mem_append_right
            rw [hMdef]
            apply List.mem_filter.mpr
            exact ⟨hs', by simp [hin]⟩
        · exact (hstmts s hs).2.1
        · exact (hstmts s hs).2.2

/-- When every statement is already among the barrel's trimmed non-empty
lines, `updateBarrel` performs no write and leaves the snapshot alone. -/
theorem updateBarrel_noop (fs : FS) (p : String) (stmts : List String)
    (template : List String → String) (c : String)
    (hc : lookupFS fs p = some c)
    (hall : ∀ s ∈ stmts, s ∈ barrelLinesOf c) :
    updateBarrel fs p stmts template = (fs, []) := by
  simp only [updateBarrel, hc]
  have hmiss : (sortStrings stmts).filter (fun s => !(listContains (barrelLinesOf c) s)) = [] := by
    apply List.filter_eq_nil_iff.mpr
    intro s hs
    have : s ∈ barrelLinesOf c := hall s ((mem_sortStrings stmts s).mp hs)
    simp [(listContains_iff _ s).mpr this]
  rw [hmiss]
  simp

/-! ### Lemmas about the `add` loops -/

/-- The export statements `addCommand` collects, as a pure function of
the requested names. -/
def stmtsOf (registry : Registry) : List String → List String
  | [] => []
  | name :: rest =>
    match assocLookup registry.components name with
    | none => stmtsOf registry rest
    | some c => exportStatement c :: stmtsOf registry rest

/-- The `needsCn` flag `addCommand` accumulates, as a pure function of
the requested names. -/
def needsCnOf (registry : Registry) : List String → Bool
  | [] => false
  | name :: rest =>
    match assocLookup registry.components name with
    | none => needsCnOf registry rest
    | some c => c.requiresCn || needsCnOf registry rest

theorem addComponentsLoop_pure (registry : Registry) (language : Language)
    (outputDir : String) (ow yes tty : Bool) (ans : String → String) :
    ∀ (names : List String) (fs : FS),
      (addComponentsLoop registry language outputDir ow yes tty ans names fs).2.2.1
          = stmtsOf registry names ∧
      (addComponentsLoop registry language outputDir ow yes tty ans names fs).2.2.2
          = needsCnOf registry names := by
  intro names
  induction names with
  | nil => intro fs; simp [addComponentsLoop, stmtsOf, needsCnOf]
  | cons name rest ih =>
    intro fs
    simp only [addComponentsLoop, stmtsOf, needsCnOf]
    cases hq : assocLookup registry.components name with
    | none => exact ih fs
    | some c =>
      obtain ⟨h1, h2⟩ := ih ((addFilesLoop language outputDir ow yes tty ans c.files fs).1)
      simp [h1, h2]

theorem existsFS_addFilesLoop (language : Language) (outputDir : String)
    (ow yes tty : Bool) (ans : String → String) :
    ∀ (files : List RegistryFile) (fs : FS) (q : String),
      existsFS fs q = true →
      existsFS (addFilesLoop language outputDir ow yes tty ans files fs).1 q = true := by
  intro files
  induction files with
  | nil => intro fs q h; simpa [addFilesLoop] using h
  | cons f rest ih =>
    intro fs q h
    simp only [addFilesLoop]
    by_cases hw : shouldWriteFile fs (targetPath outputDir language f) ow yes tty
        (ans (targetPath outputDir language f))
    · rw [if_pos hw]
      exact ih _ q (existsFS_writeFS_mono fs _ _ q h)
    · rw [if_neg hw]
      exact ih fs q h

theorem existsFS_addComponentsLoop (registry : Registry) (language : Language)
    (outputDir : String) (ow yes tty : Bool) (ans : String → String) :
    ∀ (names : List String) (fs : FS) (q : String),
      existsFS fs q = true →
      existsFS (addComponentsLoop registry language outputDir ow yes tty ans names fs).1 q = true := by
  intro names
  induction names with
  | nil => intro fs q h; simpa [addComponentsLoop] using h
  | cons name rest ih =>
    intro fs q h
    simp only [addComponentsLoop]
    cases hq : assocLookup registry.components name with
    | none => exact ih fs q h
    | some c =>
      exact ih _ q (existsFS_addFilesLoop language outputDir ow yes tty ans c.files fs q h)

theorem exists_of_shouldWriteFile_false (fs : FS) (p : String) (ow yes tty : Bool)
    (a : String) (h : shouldWriteFile fs p ow yes tty a = false) :
    existsFS fs p = true := by
  by_cases he : existsFS fs p
  · exact he
  · rw [Bool.not_eq_true] at he
    simp [shouldWriteFile, he] at h

theorem addFilesLoop_establishes (language : Language) (outputDir : String)
    (ow yes tty : Bool) (ans : String → String) :
    ∀ (files : List RegistryFile) (fs : FS), ∀ f ∈ files,
      existsFS (addFilesLoop language outputDir ow yes tty ans files fs).1
        (targetPath outputDir language f) = true := by
  intro files
  induction files with
  | nil => intro fs f hf; simp at hf
  | cons g rest ih =>
    intro fs f hf
    rcases List.mem_cons.mp hf with rfl | hf2
    · simp only [addFilesLoop]
      by_cases hw : shouldWriteFile fs (targetPath outputDir language f) ow yes tty
          (ans (targetPath outputDir language f))
      · rw [if_pos hw]
        exact existsFS_addFilesLoop language outputDir ow yes tty ans rest _ _
          (existsFS_writeFS_self fs _ _)
      · rw [if_neg hw]
        exact existsFS_addFilesLoop language outputDir ow yes tty ans rest fs _
          (exists_of_shouldWriteFile_false fs _ ow yes tty _ (Bool.not_eq_true _ ▸ hw))
    · simp only [addFilesLoop]
      by_cases hw : shouldWriteFile fs (targetPath outputDir language g) ow yes tty
          (ans (targetPath outputDir language g))
      · rw [if_pos hw]
        exact ih _ f hf2
      · rw [if_neg hw]
        exact ih fs f hf2

theorem addComponentsLoop_establishes (registry : Registry) (language : Language)
    (outputDir : String) (ow yes tty : Bool) (ans : String → String) :
    ∀ (names : List String) (fs : FS), ∀ name ∈ names, ∀ c,
      assocLookup registry.components name = some c → ∀ f ∈ c.files,
      existsFS (addComponentsLoop registry language outputDir ow yes tty ans names fs).1
        (targetPath outputDir language f) = true := by
  intro names
  induction names with
  | nil => intro fs name hname; simp at hname
  | cons hd rest ih =>
    intro fs name hname c hc f hf
    rcases List.mem_cons.mp hname with rfl | hname2
    · simp only [addComponentsLoop, hc]
      exact existsFS_addComponentsLoop registry language outputDir ow yes tty ans rest _ _
        (addFilesLoop_establishes language outputDir ow yes tty ans c.files fs f hf)
    · simp only [addComponentsLoop]
      cases hq : assocLookup registry.components hd with
      | none => exact ih fs name hname2 c hc f hf
      | some c2 => exact ih _ name hname2 c hc f hf

theorem shouldWriteFile_skip (fs : FS) (p : String) (yes : Bool) (a : String)
    (h : existsFS fs p = true) :
    shouldWriteFile fs p false yes false a = false := by
  simp [shouldWriteFile, h]

theorem addFilesLoop_skip (language : Language) (outputDir : String)
    (yes : Bool) (ans : String → String) :
    ∀ (files : List RegistryFile) (fs : FS),
      (∀ f ∈ files, existsFS fs (targetPath outputDir language f) = true) →
      addFilesLoop language outputDir false yes false ans files fs = (fs, []) := by
  intro files
  induction files with
  | nil => intro fs _; simp [addFilesLoop]
  | cons f rest ih =>
    intro fs h
    have hex := h f (List.mem_cons_self _ _)
    simp only [addFilesLoop]
    rw [if_neg (by rw [shouldWriteFile_skip fs _ yes _ hex]; simp)]
    exact ih fs (fun g hg => h g (List.mem_cons_of_mem _ hg))

theorem addComponentsLoop_skip (registry : Registry) (language : Language)
    (outputDir : String) (yes : Bool) (ans : String → String) :
    ∀ (names : List String) (fs : FS),
      (∀ name ∈ names, ∀ c, assocLookup registry.components name = some c →
        ∀ f ∈ c.files, existsFS fs (targetPath outputDir language f) = true) →
      addComponentsLoop registry language outputDir false yes false ans names fs
        = (fs, [], stmtsOf registry names, needsCnOf registry names) := by
  intro names
  induction names with
  | nil => intro fs _; simp [addComponentsLoop, stmtsOf, needsCnOf]
  | cons name rest ih =>
    intro fs h
    simp only [addComponentsLoop, stmtsOf, needsCnOf]
    cases hq : assocLookup registry.components name with
    | none => exact ih fs (fun n hn => h n (List.mem_cons_of_mem _ hn))
    | some c =>
      have hfiles := addFilesLoop_skip language outputDir yes ans c.files fs
        (fun f hf => h name (List.mem_cons_self _ _) c hq f hf)
      have hrest := ih fs (fun n hn => h n (List.mem_cons_of_mem _ hn))
      simp [hfiles, hrest]

theorem existsFS_cnStep (registry : Registry) (language : Language)
    (utilsDir : String) (ow yes tty : Bool) (ans : String → String)
    (needsCn : Bool) (fs : FS) (q : String) (h : existsFS fs q = true) :
    existsFS (cnStep registry language utilsDir ow yes tty ans needsCn fs).1 q = true := by
  simp only [cnStep]
  by_cases hn : needsCn
  · rw [if_pos hn]
    by_cases hw : shouldWriteFile fs
        (pathJoin utilsDir ("cn." ++ cnExt language))
        ow yes tty (ans (pathJoin utilsDir ("cn." ++ cnExt language)))
    · rw [if_pos hw]
      exact existsFS_writeFS_mono fs _ _ q h
    · rw [if_neg hw]
      exact h
  · rw [if_neg hn]
    exact h

theorem cnStep_establishes (registry : Registry) (language : Language)
    (utilsDir : String) (ow yes tty : Bool) (ans : String → String) (fs : FS) :
    existsFS (cnStep registry language utilsDir ow yes tty ans true fs).1
      (pathJoin utilsDir ("cn." ++ cnExt language)) = true := by
  simp only [cnStep, if_pos rfl]
  by_cases hw : shouldWriteFile fs
      (pathJoin utilsDir ("cn." ++ cnExt language))
      ow yes tty (ans (pathJoin utilsDir ("cn." ++ cnExt language)))
  · rw [if_pos hw]
    exact existsFS_writeFS_self fs _ _
  · rw [if_neg hw]
    exact exists_of_shouldWriteFile_false fs _ ow yes tty _ (Bool.not_eq_true _ ▸ hw)

theorem cnStep_skip (registry : Registry) (language : Language)
    (utilsDir : String) (yes : Bool) (ans : String → String)
    (needsCn : Bool) (fs : FS)
    (h : needsCn = true →
      existsFS fs (pathJoin utilsDir ("cn." ++ cnExt language)) = true) :
    cnStep registry language utilsDir false yes false ans needsCn fs = (fs, []) := by
  simp only [cnStep]
  by_cases hn : needsCn
  · rw [if_pos hn]
    rw [if_neg (by rw [shouldWriteFile_skip fs _ yes _ (h hn)]; simp)]
  · rw [if_neg hn]

theorem existsFS_updateBarrel (fs : FS) (p : String) (stmts : List String)
    (template : List String → String) (q : String) (h : existsFS fs q = true) :
    existsFS (updateBarrel fs p stmts template).1 q = true := by
  cases hfs : lookupFS fs p with
  | none =>
    simp only [updateBarrel, hfs]
    exact existsFS_writeFS_mono fs _ _ q h
  | some existing =>
    simp only [updateBarrel, hfs]
    by_cases hm : (sortStrings stmts).filter
        (fun s => !(listContains (barrelLinesOf existing) s)) = []
    · rw [if_pos hm]; exact h
    · rw [if_neg hm]; exact existsFS_writeFS_mono fs _ _ q h


/-! ### The react registry's export statements -/

theorem reactRegistry_lookup (bT cT nT cnT : Language → String) (n : String)
    (c : RegistryComponent)
    (h : assocLookup (reactRegistry bT cT nT cnT).components n = some c) :
    exportStatement c = "export { Button } from \"./primitives/button\";" ∨
    exportStatement c = "export { Card } from \"./primitives/card\";" ∨
    exportStatement c = "export { NeonBorder } from \"./wrappers/neon-border\";" := by
  simp only [reactRegistry, assocLookup] at h
  by_cases h1 : "button" = n
  · rw [if_pos h1] at h
    cases h
    left; rfl
  · rw [if_neg h1] at h
    by_cases h2 : "card" = n
    · rw [if_pos h2] at h
      cases h
      right; left; rfl
    · rw [if_neg h2] at h
      by_cases h3 : "neon-border" = n
      · rw [if_pos h3] at h
        cases h
        right; right; rfl
      · rw [if_neg h3] at h
        cases h

theorem stmtsOf_reactRegistry_trimmed (bT cT nT cnT : Language → String) :
    ∀ (names : List String), ∀ s ∈ stmtsOf (reactRegistry bT cT nT cnT) names,
      TrimmedStatement s := by
  intro names
  induction names with
  | nil => intro s hs; simp [stmtsOf] at hs
  | cons n rest ih =>
    intro s hs
    simp only [stmtsOf] at hs
    cases hq : assocLookup (reactRegistry bT cT nT cnT).components n with
    | none => rw [hq] at hs; exact ih s hs
    | some c =>
      rw [hq] at hs
      rcases List.mem_cons.mp hs with rfl | hs2
      · rcases reactRegistry_lookup bT cT nT cnT n c hq with he | he | he <;>
          rw [he] <;> exact (by decide)
      · exact ih s hs2

/-! ### C1: a second identical `add` run changes nothing -/

/-- C1. Re-running `add` with the identical component set, without the
overwrite flag and non-interactively, after a successful first run,
performs zero writes: every component target and the shared utility
already exist, so the write policy skips them, and the barrel merge
finds no missing export line, so the whole second run returns the first
run's snapshot untouched with an empty write log. -/
theorem add_second_run_noop
    (bT cT nT cnT : Language → String) (cwd : String) (cfg : ConfigPaths)
    (lang : Language) (tty1 : Bool) (ans1 ans2 : String → String)
    (fs0 fs1 : FS) (log1 : List WriteEvent) (comps : List String)
    (ow1 yes1 yes2 : Bool)
    (h1 : addCommand (reactRegistry bT cT nT cnT) cwd cfg lang tty1 ans1 fs0 comps ow1 yes1
      = (.ok (), fs1, log1)) :
    addCommand (reactRegistry bT cT nT cnT) cwd cfg lang false ans2 fs1 comps false yes2
      = (.ok (), fs1, []) := by
  set Rr := reactRegistry bT cT nT cnT with hRr
  by_cases hu : ((comps.map (fun c => jsToLower (jsTrim c))).filter
      (fun n => (assocLookup Rr.components n).isNone)) = []
  · simp only [addCommand, if_pos hu] at h1
    set requested := comps.map (fun c => jsToLower (jsTrim c)) with hrequested
    set outD := resolveFromCwd cwd cfg.outputDir with houtD
    set barrelP := resolveFromCwd cwd cfg.barrelFile with hbarrelP
    set utilsD := resolveFromCwd cwd (cfg.utilsDir.getD (posixSlashes cfg.outputDir ++ "/utils"))
      with hutilsD
    set r1 := addComponentsLoop Rr lang outD ow1 yes1 tty1 ans1 requested fs0 with hr1
    set r2 := cnStep Rr lang utilsD ow1 yes1 tty1 ans1 r1.2.2.2 r1.1 with hr2
    set r3 := updateBarrel r2.1 barrelP r1.2.2.1 Rr.barrelTemplate with hr3
    have hfs1 : r3.1 = fs1 := congrArg (fun t => t.2.1) h1
    have hstmts : r1.2.2.1 = stmtsOf Rr requested := by
      have := (addComponentsLoop_pure Rr lang outD ow1 yes1 tty1 ans1 requested fs0).1
      rw [← hr1] at this
      exact this
    have hneeds : r1.2.2.2 = needsCnOf Rr requested := by
      have := (addComponentsLoop_pure Rr lang outD ow1 yes1 tty1 ans1 requested fs0).2
      rw [← hr1] at this
      exact this
    have hexists : ∀ name ∈ requested, ∀ c, assocLookup Rr.components name = some c →
        ∀ f ∈ c.files, existsFS fs1 (targetPath outD lang f) = true := by
      intro name hname c hc f hf
      have h0 := addComponentsLoop_establishes Rr lang outD ow1 yes1 tty1 ans1
        requested fs0 name hname c hc f hf
      rw [← hr1] at h0
      have h2 := existsFS_cnStep Rr lang utilsD ow1 yes1 tty1 ans1 r1.2.2.2 r1.1 _ h0
      rw [← hr2] at h2
      have h3 := existsFS_updateBarrel r2.1 barrelP r1.2.2.1 Rr.barrelTemplate _ h2
      rw [← hr3, hfs1] at h3
      exact h3
    have hcnex : needsCnOf Rr requested = true →
        existsFS fs1
          (pathJoin utilsD ("cn." ++ cnExt lang)) = true := by
      intro hn
      have hne : r1.2.2.2 = true := by rw [hneeds]; exact hn
      rw [hne] at hr2
      have h0 := cnStep_establishes Rr lang utilsD ow1 yes1 tty1 ans1 r1.1
      rw [← hr2] at h0
      have h3 := existsFS_updateBarrel r2.1 barrelP r1.2.2.1 Rr.barrelTemplate _ h0
      rw [← hr3, hfs1] at h3
      exact h3
    have hbar : ∃ cb, lookupFS fs1 barrelP = some cb ∧
        ∀ s ∈ stmtsOf Rr requested, s ∈ barrelLinesOf cb := by
      have htrim : ∀ s ∈ r1.2.2.1, TrimmedStatement s := by
        rw [hstmts, hRr]
        have := stmtsOf_reactRegistry_trimmed bT cT nT cnT requested
        rw [← hRr] at this ⊢
        exact this
      have hRbt : Rr.barrelTemplate = barrelTemplate := rfl
      have h0 := updateBarrel_establishes r2.1 barrelP r1.2.2.1 htrim
      rw [← hRbt, ← hr3, hfs1] at h0
      obtain ⟨cb, hcb1, hcb2⟩ := h0
      rw [hstmts] at hcb2
      exact ⟨cb, hcb1, hcb2⟩
    have hskip := addComponentsLoop_skip Rr lang outD yes2 ans2 requested fs1 hexists
    have hcnskip := cnStep_skip Rr lang utilsD yes2 ans2 (needsCnOf Rr requested) fs1 hcnex
    obtain ⟨cb, hcb1, hcb2⟩ := hbar
    have hbnoop := updateBarrel_noop fs1 barrelP (stmtsOf Rr requested) Rr.barrelTemplate cb hcb1 hcb2
    simp only [addCommand, if_pos hu, hskip, hcnskip, hbnoop]
    simp
  · simp only [addCommand, if_neg hu] at h1
    simp at h1

/-- The snapshot a first `add button` run produces from an empty
filesystem, used by the C1 witness. -/
def c1FsAfterFirstRun : FS :=
  [("r/o/primitives/button/index.tsx", "B"),
   ("r/o/utils/cn.ts", "CN"),
   ("r/o/index.ts",
    "// Auto-generated Stone UI barrel file\nexport { Button } from \"./primitives/button\";\n")]

/-- Witness for C1 at a concrete input: after `add button` on an empty
project, a second non-interactive `add button` is a strict no-op. -/
theorem add_second_run_noop_witness :
    addCommand (reactRegistry (fun _ => "B") (fun _ => "C") (fun _ => "N") (fun _ => "CN"))
      "r" ⟨"o", "o/index.ts", none⟩ .ts false (fun _ => "")
      c1FsAfterFirstRun ["button"] false false
      = (.ok (), c1FsAfterFirstRun, []) :=
  add_second_run_noop (fun _ => "B") (fun _ => "C") (fun _ => "N") (fun _ => "CN")
    "r" ⟨"o", "o/index.ts", none⟩ .ts false (fun _ => "") (fun _ => "")
    [] c1FsAfterFirstRun
    [⟨.componentFile, "r/o/primitives/button/index.tsx", "B"⟩,
     ⟨.utilFile, "r/o/utils/cn.ts", "CN"⟩,
     ⟨.barrelFile, "r/o/index.ts",
      "// Auto-generated Stone UI barrel file\nexport { Button } from \"./primitives/button\";\n"⟩]
    ["button"] false false false
    (by rfl)

/-! ### C3: the per-file write policy -/

/-- C3. `shouldWriteFile`, evaluated per target path: a missing file is
written; an existing file is replaced under `--overwrite`; with overwrite
off it is skipped whenever stdin is not a TTY or the `--yes` flag is set;
and in an interactive run the per-path prompt decides — a trimmed,
case-insensitive `yes` answer writes, while an empty (default) or `no`
answer skips. -/
theorem shouldWriteFile_policy (fs : FS) (p : String) (ow yes tty : Bool) (ans : String) :
    (existsFS fs p = false → shouldWriteFile fs p ow yes tty ans = true) ∧
    (existsFS fs p = true → ow = true → shouldWriteFile fs p ow yes tty ans = true) ∧
    (existsFS fs p = true → ow = false → (tty = false ∨ yes = true) →
      shouldWriteFile fs p ow yes tty ans = false) ∧
    (existsFS fs p = true → ow = false → tty = true → yes = false →
      ((jsToLower (jsTrim ans) = "yes" → shouldWriteFile fs p ow yes tty ans = true) ∧
       (jsTrim ans = "" → shouldWriteFile fs p ow yes tty ans = false) ∧
       (jsToLower (jsTrim ans) = "no" → shouldWriteFile fs p ow yes tty ans = false))) := by
  refine ⟨?_, ?_, ?_, ?_⟩
  · intro h; simp [shouldWriteFile, h]
  · intro h how; simp [shouldWriteFile, h, how]
  · rintro h rfl (rfl | rfl) <;> simp [shouldWriteFile, h]
  · rintro h rfl rfl rfl
    refine ⟨?_, ?_, ?_⟩
    · intro ha; simp [shouldWriteFile, promptBoolean, h, ha]
    · intro ha
      have hlow : jsToLower (jsTrim ans) = "" := by rw [ha]; rfl
      simp [shouldWriteFile, promptBoolean, h, hlow]
    · intro ha; simp [shouldWriteFile, promptBoolean, h, ha]

/-- Witness for C3: an existing file, no overwrite, interactive prompt
answered `" YES "` (trimmed and lower-cased to `yes`) is written. -/
theorem shouldWriteFile_policy_witness :
    shouldWriteFile [("p", "old")] "p" false false true " YES " = true :=
  ((shouldWriteFile_policy [("p", "old")] "p" false false true " YES ").2.2.2
    rfl rfl rfl rfl).1 (by decide)

/-! ### C8: config writes are non-destructive by default -/

/-- C8. `writeConfig` with the overwrite flag off leaves an existing
config file untouched — no write event, no error (the function is total),
and the snapshot is returned unchanged, so repeating the call stays a
no-op. -/
theorem writeConfig_nondestructive (fs : FS) (p json json2 : String)
    (h : existsFS fs p = true) :
    writeConfig fs p json false = (fs, []) ∧
    writeConfig (writeConfig fs p json false).1 p json2 false = (fs, []) := by
  constructor <;> simp [writeConfig, h]

/-- Witness for C8 at a concrete pre-existing config. -/
theorem writeConfig_nondestructive_witness :
    writeConfig [("r/stone-ui.config.json", "old contents")]
      "r/stone-ui.config.json" "new contents" false
      = ([("r/stone-ui.config.json", "old contents")], []) :=
  (writeConfig_nondestructive [("r/stone-ui.config.json", "old contents")]
    "r/stone-ui.config.json" "new contents" "x" rfl).1

/-! ### C6: `init` rejects a non-react framework before writing anything -/

/-- C6. When the detected framework is not react, `initCommand` throws
the unsupported-framework error before the config write: the snapshot is
unchanged and the write log is empty, so no partial config exists after
the failed run. -/
theorem init_unsupported_framework (fs : FS) (cwd : String) (probe : InitProbe)
    (configJson cssTemplate : String) (yes i p o ic : Bool) (st : Int)
    (hpkg : existsFS fs (pathJoin cwd "package.json") = true)
    (hfw : probe.framework ≠ .react) :
    initCommand fs cwd probe configJson cssTemplate yes i p o ic st
      = (.error ("Unsupported framework: " ++ frameworkToString probe.framework ++
          ". Stone UI CLI currently supports React."), fs, []) := by
  simp [initCommand, hpkg, hfw]

/-- Witness for C6: a vue project with a `package.json` and no config
file fails with the unsupported-framework error and stays untouched. -/
theorem init_unsupported_framework_witness :
    initCommand [("r/package.json", "{}")] "r" ⟨.vue, "npm", true, none⟩
      "cfg" "css" false true true false false 0
      = (.error "Unsupported framework: vue. Stone UI CLI currently supports React.",
         [("r/package.json", "{}")], []) :=
  init_unsupported_framework [("r/package.json", "{}")] "r" ⟨.vue, "npm", true, none⟩
    "cfg" "css" false true true false false 0 rfl (by decide)

/-! ### C10: the styles-import skip condition is a substring test -/

/-- C10. `ensureStylesImport` performs no write and reports the import as
present whenever the entry file's content contains the stylesheet path
`@stone-ui/styles/stone.css` anywhere — even in a comment — so the skip
condition is strictly broader than requiring the exact import statement
verbatim. -/
theorem ensureStylesImport_skips_on_mention (fs : FS) (p src : String)
    (hsrc : lookupFS fs p = some src)
    (hmention : containsSubstr src stoneCssPath = true) :
    ensureStylesImport fs p = (fs, [], false) := by
  simp [ensureStylesImport, hsrc, hmention]

/-- Witness for C10: a file that only mentions the stylesheet path in a
comment — the exact import statement is absent — is never patched. -/
theorem ensureStylesImport_skips_on_mention_witness :
    ensureStylesImport
      [("e", "// see @stone-ui/styles/stone.css for theming\nconst x = 1;")] "e"
      = ([("e", "// see @stone-ui/styles/stone.css for theming\nconst x = 1;")], [], false) ∧
    containsSubstr "// see @stone-ui/styles/stone.css for theming\nconst x = 1;"
      stylesImport = false :=
  ⟨ensureStylesImport_skips_on_mention _ "e" _ rfl (by decide), by decide⟩

/-! ### C9: reading the config back for `add` -/

/-- C9 counterexample. With the config file present but not parsable as
JSON, `readConfig` surfaces the JSON parser's own syntax error — here the
parser argument is instantiated with what `JSON.parse` does on the
content `hello` — which is not the missing-config error instructing the
caller to run `init`, refuting the claim that that error covers the
unparsable case. -/
theorem readConfig_unparsable_counterexample :
    readConfig (fun _ => (.error "Unexpected token h in JSON at position 0" : Except String Unit))
      [("root/stone-ui.config.json", "hello")] "root"
      = .error "Unexpected token h in JSON at position 0" ∧
    "Unexpected token h in JSON at position 0"
      ≠ "Missing stone-ui.config.json. Run \"npx @stone-ui/cli init\" first." :=
  ⟨rfl, by decide⟩

/-- C9 amended. `readConfig` fails with the missing-config error exactly
when the file is absent; when present, the raw content is handed to the
platform JSON parser and its result — a parsed value of any shape, or
its own error — is returned unchanged, with no schema validation. -/
theorem readConfig_characterization {α : Type} (parse : String → Except String α)
    (fs : FS) (cwd : String) :
    (lookupFS fs (pathJoin cwd "stone-ui.config.json") = none →
      readConfig parse fs cwd
        = .error "Missing stone-ui.config.json. Run \"npx @stone-ui/cli init\" first.") ∧
    (∀ raw, lookupFS fs (pathJoin cwd "stone-ui.config.json") = some raw →
      readConfig parse fs cwd = parse raw) := by
  constructor
  · intro h; simp [readConfig, h]
  · intro raw h; simp [readConfig, h]

/-- Witness for C9's amended characterization: an absent config file
yields the missing-config error, and a present one passes the parsed
value through untouched. -/
theorem readConfig_characterization_witness :
    readConfig (fun _ => (.ok 42 : Except String Nat)) [] "root"
      = .error "Missing stone-ui.config.json. Run \"npx @stone-ui/cli init\" first." ∧
    readConfig (fun _ => (.ok 42 : Except String Nat))
      [("root/stone-ui.config.json", "\x7b \"hello\": 1 \x7d")] "root" = .ok 42 :=
  ⟨(readConfig_characterization (fun _ => (.ok 42 : Except String Nat)) [] "root").1 rfl,
   (readConfig_characterization (fun _ => (.ok 42 : Except String Nat))
     [("root/stone-ui.config.json", "\x7b \"hello\": 1 \x7d")] "root").2 _ rfl⟩

/-! ### C4: unknown components fail atomically -/

/-- C4 counterexample. Requesting `["button", "bogus"]` fails atomically
with the single error `Unknown components: bogus` and no writes — but the
message does not contain the valid component names (`card`,
`neon-border`), refuting the claim that the error lists the full sorted
set of valid names. -/
theorem addCommand_unknown_counterexample :
    (addCommand (reactRegistry (fun _ => "B") (fun _ => "C") (fun _ => "N") (fun _ => "CN"))
      "r" ⟨"o", "o/index.ts", none⟩ .ts false (fun _ => "") [] ["button", "bogus"] false false
      = (.error "Unknown components: bogus", [], [])) ∧
    containsSubstr "Unknown components: bogus" "card" = false ∧
    containsSubstr "Unknown components: bogus" "neon-border" = false :=
  ⟨by rfl, by decide, by decide⟩

/-- C4 amended. Whenever any normalised requested name is missing from
the registry, `add` throws one error of the form
`Unknown components: <all unknown names, comma-separated>` before any
file is written: the snapshot is unchanged and the write log empty — but
the message does not include the list of valid names. -/
theorem addCommand_unknown_atomic (registry : Registry) (cwd : String) (cfg : ConfigPaths)
    (lang : Language) (tty : Bool) (ans : String → String) (fs : FS)
    (comps : List String) (ow yes : Bool)
    (hu : (comps.map (fun c => jsToLower (jsTrim c))).filter
        (fun n => (assocLookup registry.components n).isNone) ≠ []) :
    addCommand registry cwd cfg lang tty ans fs comps ow yes
      = (.error ("Unknown components: " ++ String.intercalate ", "
          ((comps.map (fun c => jsToLower (jsTrim c))).filter
            (fun n => (assocLookup registry.components n).isNone))), fs, []) := by
  simp only [addCommand, if_neg hu]

/-- Witness for C4's amended statement at the `["button", "bogus"]`
input. -/
theorem addCommand_unknown_atomic_witness :
    addCommand (reactRegistry (fun _ => "B") (fun _ => "C") (fun _ => "N") (fun _ => "CN"))
      "r" ⟨"o", "o/index.ts", none⟩ .ts false (fun _ => "") [] ["bogus", "fake"] false false
      = (.error "Unknown components: bogus, fake", [], []) := by
  have h := addCommand_unknown_atomic
    (reactRegistry (fun _ => "B") (fun _ => "C") (fun _ => "N") (fun _ => "CN"))
    "r" ⟨"o", "o/index.ts", none⟩ .ts false (fun _ => "") [] ["bogus", "fake"] false false
    (by decide)
  rw [h]
  rfl

/-! ### C2: what the barrel merge actually preserves -/

/-- C2 counterexample. Merging `["c"]` into an existing barrel holding
`"a\n\nb\n"` writes `"a\nb\nc\n"`: the blank line of the prior content
is dropped, so the prior content is not preserved in order (it is not a
prefix of the result), refuting "all prior content preserved in order". -/
theorem updateBarrel_counterexample :
    updateBarrel [("idx", "a\n\nb\n")] "idx" ["c"] barrelTemplate
      = ([("idx", "a\nb\nc\n")], [⟨.barrelFile, "idx", "a\nb\nc\n"⟩]) ∧
    jsStartsWith "a\nb\nc\n" "a\n\nb\n" = false :=
  ⟨by rfl, by decide⟩

/-- C2 amended. For an existing barrel `e`, let `L = barrelLinesOf e` be
its trimmed non-empty lines, first occurrence only, and `missing` the
sorted new statements not in `L`. The merge is a strict no-op (same
snapshot, no write event) precisely when every statement of `N` is
already in `L`; otherwise the written file is `L` followed by `missing`,
one line each plus a trailing newline: `L` keeps the prior trimmed
non-empty lines without removal or reordering (a sublist with the same
members), and `missing` is sorted and holds exactly the statements of `N`
not in `L` — blank lines, surrounding whitespace and duplicates of the
prior content are normalised away, not preserved verbatim. -/
theorem updateBarrel_characterization (fs : FS) (p e : String) (n : List String)
    (template : List String → String) (he : lookupFS fs p = some e) :
    ((∀ s ∈ n, s ∈ barrelLinesOf e) ↔ updateBarrel fs p n template = (fs, [])) ∧
    (¬ (∀ s ∈ n, s ∈ barrelLinesOf e) →
      updateBarrel fs p n template =
        (writeFS fs p (strJoinNL (barrelLinesOf e ++
            (sortStrings n).filter (fun s => !(listContains (barrelLinesOf e) s))) ++ "\n"),
         [⟨.barrelFile, p,
           strJoinNL (barrelLinesOf e ++
             (sortStrings n).filter (fun s => !(listContains (barrelLinesOf e) s))) ++ "\n"⟩])) ∧
    (barrelLinesOf e).Sublist (((splitLines e).map jsTrim).filter (fun l => !(l = ""))) ∧
    (∀ x, x ∈ barrelLinesOf e ↔ x ∈ ((splitLines e).map jsTrim).filter (fun l => !(l = ""))) ∧
    List.Sorted (· ≤ ·)
      ((sortStrings n).filter (fun s => !(listContains (barrelLinesOf e) s))) ∧
    (∀ s, s ∈ (sortStrings n).filter (fun s => !(listContains (barrelLinesOf e) s))
        ↔ (s ∈ n ∧ ¬ s ∈ barrelLinesOf e)) := by
  refine ⟨?_, ?_, dedupKeepFirst_sublist _, fun x => mem_dedupKeepFirst _ x, ?_, ?_⟩
  · constructor
    · intro hall
      exact updateBarrel_noop fs p n template e he
        (fun s hs => hall s hs)
    · intro heq s hs
      by_cases hmiss : (sortStrings n).filter
          (fun s => !(listContains (barrelLinesOf e) s)) = []
      · have := List.filter_eq_nil_iff.mp hmiss s ((mem_sortStrings n s).mpr hs)
        simp only [Bool.not_eq_true', Bool.not_eq_false] at this
        exact (listContains_iff _ s).mp this
      · exfalso
        have hlog := congrArg (fun t => t.2) heq
        simp only [updateBarrel, he, if_neg hmiss] at hlog
        simp at hlog
  · intro hnall
    have hmiss : (sortStrings n).filter
        (fun s => !(listContains (barrelLinesOf e) s)) ≠ [] := by
      intro hnil
      apply hnall
      intro s hs
      have := List.filter_eq_nil_iff.mp hnil s ((mem_sortStrings n s).mpr hs)
      simp only [Bool.not_eq_true', Bool.not_eq_false] at this
      exact (listContains_iff _ s).mp this
    simp only [updateBarrel, he, if_neg hmiss]
  · exact (sorted_sortStrings n).filter _
  · intro s
    rw [List.mem_filter, mem_sortStrings]
    constructor
    · rintro ⟨h1, h2⟩
      refine ⟨h1, ?_⟩
      intro hmem
      rw [Bool.not_eq_true'] at h2
      rw [← listContains_iff _ s] at hmem
      rw [h2] at hmem
      cases hmem
    · rintro ⟨h1, h2⟩
      refine ⟨h1, ?_⟩
      rw [Bool.not_eq_true']
      by_cases hc : listContains (barrelLinesOf e) s
      · exact absurd ((listContains_iff _ s).mp hc) h2
      · rwa [Bool.not_eq_true] at hc

/-- Witness for C2's amended statement: a barrel already holding the
lone requested line is left exactly as it is. -/
theorem updateBarrel_characterization_witness :
    updateBarrel [("idx", "a\nb\n")] "idx" ["a"] barrelTemplate
      = ([("idx", "a\nb\n")], []) :=
  (updateBarrel_characterization [("idx", "a\nb\n")] "idx" "a\nb\n" ["a"]
    barrelTemplate rfl).1.mp (by decide)

/-! ### C5: where the shared-utility write sits in a run -/

/-- Does a write event come from the given call site? -/
def kindIs (k : WriteKind) (e : WriteEvent) : Bool := decide (e.kind = k)

/-- The ordering property claimed by C5: no component-file write anywhere
in the log precedes a shared-utility write. -/
def NoComponentWriteBeforeUtil (log : List WriteEvent) : Prop :=
  ∀ i j : Fin log.length, (log.get i).kind = WriteKind.componentFile →
    (log.get j).kind = WriteKind.utilFile → ¬ (i.val < j.val)

instance (log : List WriteEvent) : Decidable (NoComponentWriteBeforeUtil log) :=
  inferInstanceAs (Decidable (∀ i j : Fin log.length,
    (log.get i).kind = WriteKind.componentFile →
    (log.get j).kind = WriteKind.utilFile → ¬ (i.val < j.val)))

/-- C5 counterexample. Running `add button` on an empty project writes
the button component file first and the shared `cn` utility after it
(`add.ts` runs its `needsCn` block after the per-component loop), so a
component-file write does precede the shared-utility write. -/
theorem add_component_before_util_counterexample :
    ¬ NoComponentWriteBeforeUtil
      (addCommand (reactRegistry (fun _ => "B") (fun _ => "C") (fun _ => "N") (fun _ => "CN"))
        "r" ⟨"o", "o/index.ts", none⟩ .ts false (fun _ => "") [] ["button"] false false).2.2 := by
  decide

theorem addFilesLoop_kinds (language : Language) (outputDir : String)
    (ow yes tty : Bool) (ans : String → String) :
    ∀ (files : List RegistryFile) (fs : FS),
      ∀ e ∈ (addFilesLoop language outputDir ow yes tty ans files fs).2,
        e.kind = WriteKind.componentFile := by
  intro files
  induction files with
  | nil => intro fs e he; simp [addFilesLoop] at he
  | cons f rest ih =>
    intro fs e he
    simp only [addFilesLoop] at he
    by_cases hw : shouldWriteFile fs (targetPath outputDir language f) ow yes tty
        (ans (targetPath outputDir language f))
    · rw [if_pos hw] at he
      rcases List.mem_cons.mp he with heq | he2
      · rw [heq]
      · exact ih _ e he2
    · rw [if_neg hw] at he
      exact ih fs e he

theorem addComponentsLoop_kinds (registry : Registry) (language : Language)
    (outputDir : String) (ow yes tty : Bool) (ans : String → String) :
    ∀ (names : List String) (fs : FS),
      ∀ e ∈ (addComponentsLoop registry language outputDir ow yes tty ans names fs).2.1,
        e.kind = WriteKind.componentFile := by
  intro names
  induction names with
  | nil => intro fs e he; simp [addComponentsLoop] at he
  | cons name rest ih =>
    intro fs e he
    simp only [addComponentsLoop] at he
    cases hq : assocLookup registry.components name with
    | none => rw [hq] at he; exact ih fs e he
    | some c =>
      rw [hq] at he
      simp only [List.mem_append] at he
      rcases he with he1 | he2
      · exact addFilesLoop_kinds language outputDir ow yes tty ans c.files fs e he1
      · exact ih _ e he2

theorem cnStep_kinds (registry : Registry) (language : Language)
    (utilsDir : String) (ow yes tty : Bool) (ans : String → String)
    (needsCn : Bool) (fs : FS) :
    ∀ e ∈ (cnStep registry language utilsDir ow yes tty ans needsCn fs).2,
      e.kind = WriteKind.utilFile := by
  intro e he
  simp only [cnStep] at he
  by_cases hn : needsCn
  · rw [if_pos hn] at he
    by_cases hw : shouldWriteFile fs (pathJoin utilsDir ("cn." ++ cnExt language)) ow yes tty
        (ans (pathJoin utilsDir ("cn." ++ cnExt language)))
    · rw [if_pos hw] at he
      rcases List.mem_singleton.mp he with rfl
      rfl
    · rw [if_neg hw] at he
      simp at he
  · rw [if_neg hn] at he
    simp at he

theorem updateBarrel_kinds (fs : FS) (p : String) (stmts : List String)
    (template : List String → String) :
    ∀ e ∈ (updateBarrel fs p stmts template).2, e.kind = WriteKind.barrelFile := by
  intro e he
  cases hfs : lookupFS fs p with
  | none =>
    simp only [updateBarrel, hfs] at he
    rcases List.mem_singleton.mp he with rfl
    rfl
  | some existing =>
    simp only [updateBarrel, hfs] at he
    by_cases hm : (sortStrings stmts).filter
        (fun s => !(listContains (barrelLinesOf existing) s)) = []
    · rw [if_pos hm] at he; simp at he
    · rw [if_neg hm] at he
      rcases List.mem_singleton.mp he with rfl
      rfl

theorem filter_kinds_decompose (A B C : List WriteEvent)
    (hA : ∀ e ∈ A, e.kind = WriteKind.componentFile)
    (hB : ∀ e ∈ B, e.kind = WriteKind.utilFile)
    (hC : ∀ e ∈ C, e.kind = WriteKind.barrelFile) :
    (A ++ B ++ C).filter (kindIs WriteKind.componentFile) = A ∧
    (A ++ B ++ C).filter (kindIs WriteKind.utilFile) = B ∧
    (A ++ B ++ C).filter (kindIs WriteKind.barrelFile) = C := by
  refine ⟨?_, ?_, ?_⟩ <;>
    rw [List.filter_append, List.filter_append]
  · rw [List.filter_eq_self.mpr (fun e he => by simp [kindIs, hA e he]),
      List.filter_eq_nil_iff.mpr (fun e he => by simp [kindIs, hB e he]),
      List.filter_eq_nil_iff.mpr (fun e he => by simp [kindIs, hC e he])]
    simp
  · rw [List.filter_eq_nil_iff.mpr (fun e he => by simp [kindIs, hA e he]),
      List.filter_eq_self.mpr (fun e he => by simp [kindIs, hB e he]),
      List.filter_eq_nil_iff.mpr (fun e he => by simp [kindIs, hC e he])]
    simp
  · rw [List.filter_eq_nil_iff.mpr (fun e he => by simp [kindIs, hA e he]),
      List.filter_eq_nil_iff.mpr (fun e he => by simp [kindIs, hB e he]),
      List.filter_eq_self.mpr (fun e he => by simp [kindIs, hC e he])]
    simp

theorem shouldWriteFile_true_of (fs : FS) (p : String) (ow yes tty : Bool) (a : String)
    (h : ow = true ∨ existsFS fs p = false) :
    shouldWriteFile fs p ow yes tty a = true := by
  rcases h with rfl | hex
  · by_cases he : existsFS fs p <;> simp [shouldWriteFile, he]
  · simp [shouldWriteFile, hex]

/-- C5 corrected/amended. In every successful `add.ts` run the write log
decomposes as component-file writes, then the shared-utility write, then
the barrel write — `add.ts` performs the utility write after its
per-component loop, not before it. The utility file is still written
exactly once, under the same write policy, whenever some resolved
component requires `cn` and the overwrite flag is set or the utility file
is absent when the check runs (after the component loop). -/
theorem addCommand_util_write_position (registry : Registry) (cwd : String)
    (cfg : ConfigPaths) (lang : Language) (tty : Bool) (ans : String → String)
    (fs : FS) (comps : List String) (ow yes : Bool) (u : Unit) (fs2 : FS)
    (log : List WriteEvent)
    (h : addCommand registry cwd cfg lang tty ans fs comps ow yes = (.ok u, fs2, log)) :
    log.filter (kindIs WriteKind.componentFile) ++ log.filter (kindIs WriteKind.utilFile)
      ++ log.filter (kindIs WriteKind.barrelFile) = log ∧
    (needsCnOf registry (comps.map (fun c => jsToLower (jsTrim c))) = true →
      (ow = true ∨ existsFS
          (addComponentsLoop registry lang (resolveFromCwd cwd cfg.outputDir)
            ow yes tty ans (comps.map (fun c => jsToLower (jsTrim c))) fs).1
          (pathJoin (resolveFromCwd cwd
              (cfg.utilsDir.getD (posixSlashes cfg.outputDir ++ "/utils")))
            ("cn." ++ cnExt lang)) = false) →
      (⟨WriteKind.utilFile,
        pathJoin (resolveFromCwd cwd
            (cfg.utilsDir.getD (posixSlashes cfg.outputDir ++ "/utils")))
          ("cn." ++ cnExt lang),
        registry.cnTemplate lang⟩ : WriteEvent) ∈ log) := by
  by_cases hu : ((comps.map (fun c => jsToLower (jsTrim c))).filter
      (fun n => (assocLookup registry.components n).isNone)) = []
  · simp only [addCommand, if_pos hu] at h
    set requested := comps.map (fun c => jsToLower (jsTrim c)) with hrequested
    set outD := resolveFromCwd cwd cfg.outputDir with houtD
    set barrelP := resolveFromCwd cwd cfg.barrelFile with hbarrelP
    set utilsD := resolveFromCwd cwd (cfg.utilsDir.getD (posixSlashes cfg.outputDir ++ "/utils"))
      with hutilsD
    set r1 := addComponentsLoop registry lang outD ow yes tty ans requested fs with hr1
    set r2 := cnStep registry lang utilsD ow yes tty ans r1.2.2.2 r1.1 with hr2
    set r3 := updateBarrel r2.1 barrelP r1.2.2.1 registry.barrelTemplate with hr3
    have hlog : r1.2.1 ++ r2.2 ++ r3.2 = log := congrArg (fun t => t.2.2) h
    constructor
    · rw [← hlog]
      have hA : ∀ e ∈ r1.2.1, e.kind = WriteKind.componentFile := by
        intro e he
        have := addComponentsLoop_kinds registry lang outD ow yes tty ans requested fs e
        rw [← hr1] at this
        exact this he
      have hB : ∀ e ∈ r2.2, e.kind = WriteKind.utilFile := by
        intro e he
        have := cnStep_kinds registry lang utilsD ow yes tty ans r1.2.2.2 r1.1 e
        rw [← hr2] at this
        exact this he
      have hC : ∀ e ∈ r3.2, e.kind = WriteKind.barrelFile := by
        intro e he
        have := updateBarrel_kinds r2.1 barrelP r1.2.2.1 registry.barrelTemplate e
        rw [← hr3] at this
        exact this he
      obtain ⟨h1, h2, h3⟩ := filter_kinds_decompose r1.2.1 r2.2 r3.2 hA hB hC
      rw [h1, h2, h3]
    · intro hneed hcond
      have hneed' : r1.2.2.2 = true := by
        have := (addComponentsLoop_pure registry lang outD ow yes tty ans requested fs).2
        rw [← hr1] at this
        rw [this]
        exact hneed
      have hwrite : shouldWriteFile r1.1 (pathJoin utilsD ("cn." ++ cnExt lang)) ow yes tty
          (ans (pathJoin utilsD ("cn." ++ cnExt lang))) = true := by
        apply shouldWriteFile_true_of
        rcases hcond with how | hex
        · exact Or.inl how
        · exact Or.inr hex
      have hr2eq : r2.2 = [⟨WriteKind.utilFile, pathJoin utilsD ("cn." ++ cnExt lang),
          registry.cnTemplate lang⟩] := by
        rw [hr2, hneed']
        simp [cnStep, hwrite]
      rw [← hlog]
      rw [hr2eq]
      simp
  · simp only [addCommand, if_neg hu] at h
    simp at h

/-- Witness for C5's amended statement at a concrete run: the log of
`add button` on an empty project is component write, then utility write,
then barrel write, and the utility event is present. -/
theorem addCommand_util_write_position_witness :
    ((addCommand (reactRegistry (fun _ => "B") (fun _ => "C") (fun _ => "N") (fun _ => "CN"))
        "r" ⟨"o", "o/index.ts", none⟩ .ts false (fun _ => "") [] ["button"] false false).2.2).filter
          (kindIs WriteKind.componentFile)
      ++ ((addCommand (reactRegistry (fun _ => "B") (fun _ => "C") (fun _ => "N") (fun _ => "CN"))
        "r" ⟨"o", "o/index.ts", none⟩ .ts false (fun _ => "") [] ["button"] false false).2.2).filter
          (kindIs WriteKind.utilFile)
      ++ ((addCommand (reactRegistry (fun _ => "B") (fun _ => "C") (fun _ => "N") (fun _ => "CN"))
        "r" ⟨"o", "o/index.ts", none⟩ .ts false (fun _ => "") [] ["button"] false false).2.2).filter
          (kindIs WriteKind.barrelFile)
      = (addCommand (reactRegistry (fun _ => "B") (fun _ => "C") (fun _ => "N") (fun _ => "CN"))
        "r" ⟨"o", "o/index.ts", none⟩ .ts false (fun _ => "") [] ["button"] false false).2.2 :=
  (addCommand_util_write_position
    (reactRegistry (fun _ => "B") (fun _ => "C") (fun _ => "N") (fun _ => "CN"))
    "r" ⟨"o", "o/index.ts", none⟩ .ts false (fun _ => "") [] ["button"] false false
    () c1FsAfterFirstRun
    [⟨.componentFile, "r/o/primitives/button/index.tsx", "B"⟩,
     ⟨.utilFile, "r/o/utils/cn.ts", "CN"⟩,
     ⟨.barrelFile, "r/o/index.ts",
      "// Auto-generated Stone UI barrel file\nexport { Button } from \"./primitives/button\";\n"⟩]
    (by rfl)).1

/-! ### C7: where the CSS import is inserted -/

/-- Declarative companion to the scan: extend the import run that began
at index `last`, skipping blank/comment lines, moving `last` to each
later import, stopping at the first other line. -/
def extendBlock : List String → Nat → Nat → Nat
  | [], _, last => last
  | l :: rest, pos, last =>
    if isSkipLine l then extendBlock rest (pos + 1) last
    else if isImportLine l then extendBlock rest (pos + 1) pos
    else last

/-- Skip every line until the first import anywhere in the file, then
take the last import of the run it starts. -/
def lastImportOfFirstBlockAux : List String → Nat → Option Nat
  | [], _ => none
  | l :: rest, i =>
    if isImportLine l then some (extendBlock rest (i + 1) i)
    else lastImportOfFirstBlockAux rest (i + 1)

/-- The last import line of the file's first import block: the run of
lines (imports, blanks, comment openers) starting at the file's first
import-statement line, lines before it being skipped; none when no line
of the file is an import statement. -/
def lastImportOfFirstBlock (lines : List String) : Option Nat :=
  lastImportOfFirstBlockAux lines 0

theorem isImportTrimmed_false_head (t : String) (c : Char) (rest : List Char)
    (hd : t.data = c :: rest) (hc : c ≠ 'i') : isImportTrimmed t = false := by
  rw [isImportTrimmed, jsStartsWith, jsStartsWith, jsStartsWith, jsStartsWith, hd]
  rw [show ("import " : String).data = 'i' :: "mport ".data from rfl]
  rw [show ("import\x7b" : String).data = 'i' :: "mport\x7b".data from rfl]
  rw [show ("import\"" : String).data = 'i' :: "mport\"".data from rfl]
  rw [show ("import'" : String).data = 'i' :: "mport'".data from rfl]
  simp [isPrefixList, Ne.symm hc]

theorem isImportLine_false_of_skip (l : String) (h : isSkipLine l = true) :
    isImportLine l = false := by
  rw [isSkipLine, isSkipTrimmed] at h
  rw [isImportLine]
  simp only [Bool.or_eq_true] at h
  rcases h with (h0 | hss) | hsb
  · have he : jsTrim l = "" := by simpa using h0
    rw [he]
    decide
  · rw [jsStartsWith] at hss
    obtain ⟨tail, htl⟩ := (isPrefixList_iff _ _).mp hss
    refine isImportTrimmed_false_head (jsTrim l) '/' ('/' :: tail) ?_ (by decide)
    rw [htl]
    rfl
  · rw [jsStartsWith] at hsb
    obtain ⟨tail, htl⟩ := (isPrefixList_iff _ _).mp hsb
    refine isImportTrimmed_false_head (jsTrim l) '/' ('*' :: tail) ?_ (by decide)
    rw [htl]
    rfl

theorem findLastImportIndexAux_some (rest : List String) :
    ∀ (pos k : Nat), findLastImportIndexAux rest pos (some k)
      = some (extendBlock rest pos k) := by
  induction rest with
  | nil => intro pos k; rfl
  | cons l rs ih =>
    intro pos k
    simp only [findLastImportIndexAux, extendBlock, isSkipLine, isImportLine]
    by_cases hs : isSkipTrimmed (jsTrim l)
    · rw [if_pos hs, if_pos hs]
      exact ih (pos + 1) k
    · rw [if_neg hs, if_neg hs]
      by_cases hi : isImportTrimmed (jsTrim l)
      · rw [if_pos hi, if_pos hi]
        exact ih (pos + 1) pos
      · rw [if_neg hi, if_neg hi]

theorem findLastImportIndexAux_eq (lines : List String) :
    ∀ i, findLastImportIndexAux lines i none = lastImportOfFirstBlockAux lines i := by
  induction lines with
  | nil => intro i; rfl
  | cons l rest ih =>
    intro i
    simp only [findLastImportIndexAux, lastImportOfFirstBlockAux, isImportLine]
    by_cases hs : isSkipTrimmed (jsTrim l)
    · rw [if_pos hs]
      have hni : isImportTrimmed (jsTrim l) = false := by
        have := isImportLine_false_of_skip l (by rw [isSkipLine]; exact hs)
        rwa [isImportLine] at this
      rw [if_neg (by rw [hni]; simp)]
      exact ih (i + 1)
    · rw [if_neg hs]
      by_cases hi : isImportTrimmed (jsTrim l)
      · rw [if_pos hi, if_pos hi]
        exact findLastImportIndexAux_some rest (i + 1) i
      · rw [if_neg hi, if_neg hi]
        exact ih (i + 1)

theorem lastImportOfFirstBlockAux_none_iff (lines : List String) :
    ∀ i, (lastImportOfFirstBlockAux lines i = none ↔
      ∀ l ∈ lines, isImportLine l = false) := by
  induction lines with
  | nil => intro i; simp [lastImportOfFirstBlockAux]
  | cons l rest ih =>
    intro i
    simp only [lastImportOfFirstBlockAux]
    by_cases hi : isImportLine l
    · rw [if_pos hi]
      simp [hi]
    · rw [if_neg hi]
      rw [ih (i + 1)]
      constructor
      · intro hall m hm
        rcases List.mem_cons.mp hm with rfl | hm2
        · rwa [Bool.not_eq_true] at hi
        · exact hall m hm2
      · intro hall m hm
        exact hall m (List.mem_cons_of_mem _ hm)

theorem patchImportAtTop_eq (source importLine : String) :
    patchImportAtTop source importLine =
      match lastImportOfFirstBlock (splitLines source) with
      | some k => strJoinNL ((splitLines source).take (k + 1) ++ [importLine]
          ++ (splitLines source).drop (k + 1))
      | none => importLine ++ "\n" ++ source := by
  rw [patchImportAtTop, lastImportOfFirstBlock, ← findLastImportIndexAux_eq]

/-- C7 counterexample. On an entry file whose first line is plain code
followed by an import, `patchImportAtTop` inserts the styles import in
the middle of the file, after that import — not at the very top, although
the file has no top-of-file import block (its first line is neither
an import-statement line nor a blank/comment line), refuting the claimed placement
"immediately after the last top-of-file import statement, or at the very
top of the file if no import statement exists". -/
theorem patchImportAtTop_counterexample :
    patchImportAtTop "const a = 1;\nimport \"b\";\nconst c = 2;" stylesImport
      = "const a = 1;\nimport \"b\";\nimport \"@stone-ui/styles/stone.css\";\nconst c = 2;" ∧
    patchImportAtTop "const a = 1;\nimport \"b\";\nconst c = 2;" stylesImport
      ≠ stylesImport ++ "\n" ++ "const a = 1;\nimport \"b\";\nconst c = 2;" ∧
    isImportLine "const a = 1;" = false ∧
    isSkipLine "const a = 1;" = false ∧
    isImportLine "import \"b\";" = true := by
  refine ⟨by rfl, by decide, by decide, by decide, by decide⟩

/-- C7 corrected/amended. `ensureStylesImport` is a strict no-op when the
entry file already contains the exact styles import (or merely the
stylesheet path); otherwise it writes the source with exactly one line
inserted: the patched line list is the original with the import placed
right after index `k`, where `k` is the last import line of the file's
first import block — the run of import/blank/comment-opening lines
starting at the first import line anywhere in the file, lines before
that first import being skipped over — or, when the file has no import
line at all, the import is prepended at the very top. -/
theorem ensureStylesImport_characterization (fs : FS) (p src : String)
    (hsrc : lookupFS fs p = some src) :
    (containsSubstr src stylesImport = true → ensureStylesImport fs p = (fs, [], false)) ∧
    (containsSubstr src stoneCssPath = false →
      ensureStylesImport fs p
        = (writeFS fs p (patchImportAtTop src stylesImport),
           [⟨.entryFile, p, patchImportAtTop src stylesImport⟩], true)) ∧
    ((∀ l ∈ splitLines src, isImportLine l = false) →
      patchImportAtTop src stylesImport = stylesImport ++ "\n" ++ src) ∧
    (∀ k, lastImportOfFirstBlock (splitLines src) = some k →
      patchImportAtTop src stylesImport
        = strJoinNL ((splitLines src).take (k + 1) ++ [stylesImport]
            ++ (splitLines src).drop (k + 1))) := by
  refine ⟨?_, ?_, ?_, ?_⟩
  · intro hfull
    have hpath : containsSubstr src stoneCssPath = true :=
      containsSubstr_trans src stylesImport stoneCssPath hfull (by decide)
    simp [ensureStylesImport, hsrc, hpath]
  · intro hpath
    simp [ensureStylesImport, hsrc, hpath]
  · intro hnone
    rw [patchImportAtTop_eq]
    have h0 : lastImportOfFirstBlock (splitLines src) = none :=
      (lastImportOfFirstBlockAux_none_iff (splitLines src) 0).mpr hnone
    rw [h0]
  · intro k hk
    rw [patchImportAtTop_eq, hk]

/-- Witness for C7's amended statement: a file that starts with an import
gets the styles import inserted right after it, as one new line. -/
theorem ensureStylesImport_characterization_witness :
    ensureStylesImport [("e", "import \"a\";\nconst x = 1;")] "e"
      = ([("e", "import \"a\";\nimport \"@stone-ui/styles/stone.css\";\nconst x = 1;")],
         [⟨.entryFile, "e",
           "import \"a\";\nimport \"@stone-ui/styles/stone.css\";\nconst x = 1;"⟩],
         true) := by
  have h := (ensureStylesImport_characterization [("e", "import \"a\";\nconst x = 1;")]
    "e" "import \"a\";\nconst x = 1;" rfl).2.1 (by decide)
  rw [h]
  rfl

end StoneUI
